import Mathlib

/-!
Verification of the PID-Patrol monitoring engine
(src/dashboards/utils.py and src/dashboards/web_dashboard.py).

The Python code is shallowly embedded: Python strings are Lean `String`
(a wrapper around `List Char`), Python floats are modelled as exact
rationals `ℚ`, per-process OS failures (NoSuchProcess / AccessDenied /
ZombieProcess) are modelled as boolean accessibility flags on the
process-table entries, and the module-level mutable globals
(`running`, `interval`, `process_names`) become an explicit
`EngineState` threaded through each operation.  Each embedded operation
returns the new state paired with the `ok` flag of its JSON response
(`true` for HTTP 200, `false` for the HTTP 409 error payload).
-/

namespace PIDPatrol

/-! ### Python string primitives -/

/-- Model of Python `str.strip()`: drop leading and trailing whitespace
(working on the character list underlying the string). -/
def pyStrip (s : String) : String :=
  ⟨((s.data.dropWhile Char.isWhitespace).reverse.dropWhile Char.isWhitespace).reverse⟩

/-- Model of Python `str.lower()`: characterwise lowercasing. -/
def pyLower (s : String) : String :=
  ⟨s.data.map Char.toLower⟩

/-! ### Name normalizer (utils.normalize_names, utils._split_names) -/

/-- One element of the raw input accepted by `normalize_names`:
either a bare string or a dict, from which the `"name"` key is read
(`str(item.get("name", "") if isinstance(item, dict) else item)`). -/
inductive RawItem where
  | str (s : String)
  | dict (name : Option String)
deriving DecidableEq, Repr

def extractName : RawItem → String
  | RawItem.str s => s
  | RawItem.dict o => o.getD ""

/-- The raw argument of `normalize_names`: a Python list, or any
non-list value (`if not isinstance(raw, list): return []`). -/
inductive RawInput where
  | list (items : List RawItem)
  | notList
deriving DecidableEq, Repr

/-- The second pass of `normalize_names`: walk the collected names with a
`seen` set of lowercased keys, keeping the first occurrence of each
case-insensitive class. -/
def dedupAux (seen : List String) : List String → List String
  | [] => []
  | n :: rest =>
    if pyLower n ∈ seen then dedupAux seen rest
    else n :: dedupAux (pyLower n :: seen) rest

/-- Embedding of `utils.normalize_names`: non-list input yields `[]`;
otherwise strip each extracted name, drop the ones that become empty,
then deduplicate case-insensitively keeping first-seen order. -/
def normalize_names : RawInput → List String
  | RawInput.notList => []
  | RawInput.list items =>
    dedupAux [] ((items.map (fun it => pyStrip (extractName it))).filter
      (fun n => decide (n ≠ "")))

/-- Specification-level rendering of case-insensitive deduplication:
keep each entry and erase every later entry equal to it up to
lowercasing (keeping the first-seen casing at the first-seen
position). -/
def keepFirstCI : List String → List String
  | [] => []
  | n :: rest =>
    n :: keepFirstCI (rest.filter (fun m => decide (pyLower m ≠ pyLower n)))
  termination_by l => l.length
  decreasing_by
    simp only [List.length_cons]
    exact Nat.lt_succ_of_le (List.length_filter_le _ _)

/-- Separator set of `utils._split_names` (the regex class of comma,
newline and semicolon). -/
def isSepChar (c : Char) : Bool := c = ',' || c = '\n' || c = ';'

/-- Embedding of `utils._split_names`: split a free-text line on commas,
semicolons and newlines, trim the parts and drop the empty ones.  (The
regex splits on runs of separators; splitting on single separators and
then dropping the empty parts yields the same list.) -/
def splitNames (raw : String) : List String :=
  ((raw.split isSepChar).map pyStrip).filter (fun p => decide (p ≠ ""))

/-! ### Process sampler (utils.row_for_name) -/

/-- One entry of the OS process table, together with the accessibility
of each psutil call made on it by `row_for_name`:
`iterOk` means reading the name / constructing the process handle inside
the enumeration loop succeeds; `primeOk` means the priming
`cpu_percent(None)` call succeeds; `cpuOk` the second `cpu_percent`
read, `memOk` the `memory_info().rss` read, `statusOk` the `status()`
read.  A failing call raises in the Python code and makes the loop skip
the remaining reads for that process. -/
structure ProcEntry where
  pid : Nat
  name : String
  iterOk : Bool
  primeOk : Bool
  cpuOk : Bool
  memOk : Bool
  statusOk : Bool
  cpu : ℚ
  rss : Nat
  status : String
deriving DecidableEq, Repr

/-- Status coercion `(p.status() or "running")`: an empty reported
status is replaced by `"running"`. -/
def pstatus (p : ProcEntry) : String := if p.status = "" then "running" else p.status

/-- Accumulated totals of the third loop of `row_for_name`. -/
structure Agg where
  total_cpu : ℚ
  total_mem : Nat
  statuses : List String
  pid_list : List Nat
deriving DecidableEq, Repr

/-- The third loop of `row_for_name`: for each process, add its CPU
percentage, then its resident memory, then record its status and PID;
an exception at any of the three stages skips the remaining stages for
that process only. -/
def aggregate : List ProcEntry → Agg
  | [] => ⟨0, 0, [], []⟩
  | p :: rest =>
    let a := aggregate rest
    if p.cpuOk = false then a
    else if p.memOk = false then { a with total_cpu := p.cpu + a.total_cpu }
    else if p.statusOk = false then
      { a with total_cpu := p.cpu + a.total_cpu, total_mem := p.rss + a.total_mem }
    else ⟨p.cpu + a.total_cpu, p.rss + a.total_mem, pstatus p :: a.statuses, p.pid :: a.pid_list⟩

/-- Number of occurrences of `s` in `l` (the count held by the
`collections.Counter`). -/
def countOcc (l : List String) (s : String) : Nat := List.count s l

/-- The fold step realizing `Counter.most_common(1)[0][0]`: scan the
statuses keeping the first element whose count is strictly maximal so
far.  Ties keep the earlier element, exactly as `most_common` (a stable
sort by descending count) returns the first-inserted key among
maxima. -/
def mcStep (l : List String) (best s : String) : String :=
  if countOcc l best < countOcc l s then s else best

/-- Model of `Counter(statuses).most_common(1)[0][0]` for a nonempty
status list. -/
def mostCommon (l : List String) : String :=
  match l with
  | [] => ""
  | k :: ks => ks.foldl (mcStep l) k

/-- Round half to even, the rounding mode of Python `round`. -/
def rhe (x : ℚ) : ℤ :=
  if x - ⌊x⌋ < 1 / 2 then ⌊x⌋
  else if (1 : ℚ) / 2 < x - ⌊x⌋ then ⌊x⌋ + 1
  else if ⌊x⌋ % 2 = 0 then ⌊x⌋ else ⌊x⌋ + 1

/-- Model of Python `round(x, 3)`: exact decimal rounding of a rational
to 3 decimal places, half to even. -/
def pyRound3 (x : ℚ) : ℚ := (rhe (1000 * x) : ℚ) / 1000

/-- Core count `max(1, psutil.cpu_count(logical=True) or 1)`;
`cpuCount = 0` models `cpu_count` returning `None`. -/
def logicalCount (cpuCount : Nat) : Nat := max 1 cpuCount

/-- The row returned by `row_for_name` (the `last_checked` wall-clock
timestamp is not modelled). -/
structure SampleRow where
  name : String
  pid : Option Nat
  pids : List Nat
  status : String
  cpu_percent : ℚ
  cpu_percent_sum : ℚ
  memory_mb : ℚ
deriving DecidableEq, Repr

/-- The canonical not-found row of `row_for_name`. -/
def notFoundRow (name : String) : SampleRow :=
  ⟨name, Option.none, [], "not_found", 0, 0, 0⟩

/-- The first loop of `row_for_name`: processes whose enumeration entry
is accessible and whose reported name matches the target exactly,
case-insensitively. -/
def matchedProcs (table : List ProcEntry) (target : String) : List ProcEntry :=
  table.filter (fun p => p.iterOk && (pyLower p.name == target))

/-- Embedding of `utils.row_for_name`, over an explicit process table
and logical-core count. -/
def row_for_name (cpuCount : Nat) (table : List ProcEntry) (name : String) : SampleRow :=
  let target := pyLower (pyStrip name)
  if target = "" then notFoundRow name
  else
    let procs := matchedProcs table target
    if procs = [] then notFoundRow name
    else
      let alive := procs.filter (fun p => p.primeOk)
      let a := aggregate alive
      if a.pid_list = [] then notFoundRow name
      else
        { name := name
          pid := a.pid_list.head?
          pids := a.pid_list
          status := if 0 < countOcc a.statuses ("running") then "running"
            else mostCommon a.statuses
          cpu_percent := pyRound3 (min 100 (a.total_cpu / (logicalCount cpuCount : ℚ)))
          cpu_percent_sum := pyRound3 a.total_cpu
          memory_mb := pyRound3 ((a.total_mem : ℚ) / (1024 * 1024)) }

/-- A process entry for which every psutil call made by `row_for_name`
succeeds (a stable live process). -/
def allOk (p : ProcEntry) : Prop :=
  p.iterOk = true ∧ p.primeOk = true ∧ p.cpuOk = true ∧ p.memOk = true ∧ p.statusOk = true

/-- An entry survives the matching and liveness steps of the sampler for
a target name iff it is matched in the enumeration loop, primes
successfully, and all three second-pass reads succeed (only then is its
PID appended to the pid list of the row). -/
def survives (target : String) (p : ProcEntry) : Prop :=
  p.iterOk = true ∧ pyLower p.name = target ∧ p.primeOk = true ∧
    p.cpuOk = true ∧ p.memOk = true ∧ p.statusOk = true

/-! ### Monitor state and API operations -/

/-- The module-level globals of `dashboards.utils`. -/
structure EngineState where
  running : Bool
  interval : ℚ
  process_names : List String
deriving DecidableEq, Repr

/-- A JSON value fed to Python `float(...)`: a number, a string, or
`None`/missing. -/
inductive PyVal where
  | num (q : ℚ)
  | str (s : String)
  | null
deriving DecidableEq, Repr

def allDigits (cs : List Char) : Bool := cs.all Char.isDigit

def natOfDigits (cs : List Char) : Nat := cs.foldl (fun a c => a * 10 + (c.toNat - 48)) 0

/-- Split a character list at the first dot (if any). -/
def breakDot : List Char → List Char × Option (List Char)
  | [] => ([], Option.none)
  | c :: rest =>
    if c = '.' then ([], some rest)
    else
      let r := breakDot rest
      (c :: r.1, r.2)

/-- Decimal literal: digits with an optional decimal point. -/
def parseDecCore (cs : List Char) : Option ℚ :=
  match breakDot cs with
  | (intPart, Option.none) =>
    if intPart ≠ [] ∧ allDigits intPart then some (natOfDigits intPart : ℚ) else Option.none
  | (intPart, some fracPart) =>
    if (intPart ≠ [] ∨ fracPart ≠ []) ∧ allDigits intPart ∧ allDigits fracPart then
      some ((natOfDigits intPart : ℚ) + (natOfDigits fracPart : ℚ) / ((10 : ℚ) ^ fracPart.length))
    else Option.none

/-- Model of Python `float(s)` on a string: surrounding whitespace is
ignored, an optional sign precedes a decimal literal; anything else
raises ValueError (here: `none`). -/
def pyFloatOfString (s : String) : Option ℚ :=
  match (pyStrip s).data with
  | [] => Option.none
  | c :: rest =>
    if c = '+' then parseDecCore rest
    else if c = '-' then (parseDecCore rest).map (fun q => -q)
    else parseDecCore (c :: rest)

/-- Model of Python `float(v)`: numbers pass through, strings are
parsed, `None` raises TypeError (here: `none`). -/
def pyFloat : PyVal → Option ℚ
  | PyVal.num q => some q
  | PyVal.str s => pyFloatOfString s
  | PyVal.null => Option.none

/-- Embedding of `utils.update_interval`: coerce to float, clamp to a
minimum of 1.0 and store; on a coercion failure report an error and
leave the stored interval unchanged. -/
def update_interval (st : EngineState) (v : PyVal) : EngineState × Bool :=
  match pyFloat v with
  | Option.none => (st, false)
  | some f => ({ st with interval := max 1 f }, true)

/-- Embedding of `web_dashboard.ui_interval` (route POST /ui/interval,
the exported set_interval operation): coerce the payload value to float
(parse failure gives 409), reject values below 1.0 with 409, otherwise
delegate to `update_interval`. -/
def ui_interval (st : EngineState) (v : PyVal) : EngineState × Bool :=
  match pyFloat v with
  | Option.none => (st, false)
  | some f => if f < 1 then (st, false) else update_interval st (PyVal.num f)

/-- Embedding of `utils.configure_processes`: fails (leaving the state
unchanged) only when the payload has no `"processes"` key; otherwise
replaces the watch list with the normalization of the supplied value
and reports success. -/
def configure_processes (st : EngineState) (payload : Option RawInput) : EngineState × Bool :=
  match payload with
  | Option.none => (st, false)
  | some raw => ({ st with process_names := normalize_names raw }, true)

/-- The tail of `web_dashboard.ui_add` after the raw names have been
normalized: empty gives 409; else merge onto the existing list,
normalize the merge, and hand it to `configure_processes`. -/
def addCore (st : EngineState) (new_names : List String) : EngineState × Bool :=
  if new_names = [] then (st, false)
  else
    configure_processes st (some (RawInput.list
      ((normalize_names (RawInput.list
        ((st.process_names ++ new_names).map RawItem.str))).map RawItem.str)))

/-- Embedding of `web_dashboard.ui_add` (route POST /ui/add).  The
argument is the extracted names/processes payload value: absent (gives
409), a list of strings, or a free-text line split by
`_split_names`. -/
def ui_add (st : EngineState) (raw : Option (Sum (List String) String)) : EngineState × Bool :=
  match raw with
  | Option.none => (st, false)
  | some (Sum.inl xs) => addCore st (normalize_names (RawInput.list (xs.map RawItem.str)))
  | some (Sum.inr s) => addCore st (normalize_names (RawInput.list ((splitNames s).map RawItem.str)))

/-- Embedding of `web_dashboard.ui_remove` (route POST /ui/remove): an
empty or missing target name gives 409; otherwise keep the entries
whose lowercase differs from the lowercase of the target and hand them
to `configure_processes`. -/
def ui_remove (st : EngineState) (raw : Option String) : EngineState × Bool :=
  let tgt := pyStrip (match raw with | Option.none => "" | some s => s)
  if tgt = "" then (st, false)
  else
    configure_processes st (some (RawInput.list
      ((st.process_names.filter (fun n => decide (pyLower n ≠ pyLower tgt))).map RawItem.str)))

/-- Embedding of `utils.api_start`: an optional processes payload
replaces the watch list only when its normalization is nonempty; an
optional interval value is clamped through float (coercion failures
ignored); the running flag is then set. -/
def api_start (st : EngineState) (processes : Option RawInput) (v : Option PyVal) :
    EngineState × Bool :=
  let st1 :=
    match processes with
    | Option.none => st
    | some raw =>
      let names := normalize_names raw
      if names = [] then st else { st with process_names := names }
  let st2 :=
    match v with
    | Option.none => st1
    | some pv =>
      match pyFloat pv with
      | Option.none => st1
      | some f => { st1 with interval := max 1 f }
  ({ st2 with running := true }, true)

/-- Embedding of `utils.api_stop`: clear the running flag; always
succeeds. -/
def api_stop (st : EngineState) : EngineState × Bool :=
  ({ st with running := false }, true)

/-- One row of the response of route GET /ui/results. -/
structure ResultRow where
  name : String
  pids : List Nat
  status : String
  cpu_percent : ℚ
  memory_mb : ℚ
deriving DecidableEq, Repr

/-- The per-row reshaping done by `web_dashboard.ui_results`. -/
def displayRow (r : SampleRow) : ResultRow :=
  { name := r.name
    pids := r.pids
    status := String.replace (if r.status = "" then "unknown" else r.status) ("_") (" ")
    cpu_percent := pyRound3 r.cpu_percent
    memory_mb := pyRound3 r.memory_mb }

/-- Embedding of `web_dashboard.ui_results` (route GET /ui/results):
when not running, or when the watch list is empty, answer 204 No
Content (`none`); otherwise sample every watched name against the
process table and return the reshaped rows. -/
def ui_results (cpuCount : Nat) (table : List ProcEntry) (st : EngineState) :
    Option (List ResultRow) :=
  if st.running = false ∨ st.process_names = [] then Option.none
  else some (st.process_names.map (fun n => displayRow (row_for_name cpuCount table n)))

/-- The watch-list invariant maintained by the engine: every stored name
is stripped and nonempty, and no two stored names agree after
lowercasing. -/
def Inv (l : List String) : Prop :=
  (∀ s ∈ l, pyStrip s = s ∧ s ≠ "") ∧ (l.map pyLower).Nodup

instance : DecidablePred allOk := fun p => by unfold allOk; infer_instance

instance (target : String) : DecidablePred (survives target) := fun p => by
  unfold survives; infer_instance

instance : DecidablePred Inv := fun l => by unfold Inv; infer_instance

/-- The aggregation contract of the sampler on a name matched by live
processes, with the CPU fields rounded to 3 decimals exactly as the
code rounds them. -/
def samplerAggSpec (c : Nat) (table : List ProcEntry) (name : String) : Prop :=
  (row_for_name c table name).cpu_percent_sum =
      pyRound3 (((matchedProcs table (pyLower (pyStrip name))).map (fun p => p.cpu)).sum) ∧
  (row_for_name c table name).cpu_percent =
      pyRound3 (min 100 (((matchedProcs table (pyLower (pyStrip name))).map
        (fun p => p.cpu)).sum / (logicalCount c : ℚ))) ∧
  (row_for_name c table name).memory_mb =
      pyRound3 ((Nat.cast (((matchedProcs table (pyLower (pyStrip name))).map
        (fun p => p.rss)).sum) : ℚ) / (1024 * 1024)) ∧
  (row_for_name c table name).pids =
      (matchedProcs table (pyLower (pyStrip name))).map (fun p => p.pid) ∧
  ("running" ∈ (matchedProcs table (pyLower (pyStrip name))).map pstatus →
      (row_for_name c table name).status = "running") ∧
  ("running" ∉ (matchedProcs table (pyLower (pyStrip name))).map pstatus →
      (row_for_name c table name).status ∈
        (matchedProcs table (pyLower (pyStrip name))).map pstatus ∧
      ∀ s ∈ (matchedProcs table (pyLower (pyStrip name))).map pstatus,
        countOcc ((matchedProcs table (pyLower (pyStrip name))).map pstatus) s ≤
          countOcc ((matchedProcs table (pyLower (pyStrip name))).map pstatus)
            (row_for_name c table name).status)

/-! ### Concrete fixtures used by witnesses and counterexamples -/

/-- A fully live chrome.exe process with the given PID and CPU share. -/
def liveEntry (pid : Nat) (cpu : ℚ) : ProcEntry :=
  ⟨pid, "chrome.exe", true, true, true, true, true, cpu, 104857600, "running"⟩

def liveTable : List ProcEntry := [liveEntry 101 10, liveEntry 102 20]

/-- A fully live process named svc whose CPU share has four decimal
places, exposing the rounding of the CPU aggregates. -/
def roundEntry (pid : Nat) (cpu : ℚ) : ProcEntry :=
  ⟨pid, "svc", true, true, true, true, true, cpu, 1048576, "running"⟩

def roundTable : List ProcEntry := [roundEntry 11 (100002 / 10000), roundEntry 12 (200002 / 10000)]

/-- An enumeration entry that raises on access (NoSuchProcess or
AccessDenied inside the process_iter loop). -/
def deadEntry : ProcEntry := ⟨7, "svc", false, true, true, true, true, 0, 0, "running"⟩

def twoNameTable : List ProcEntry :=
  [⟨1, "alpha", true, true, true, true, true, 0, 0, "running"⟩,
   ⟨2, "beta", true, true, true, true, true, 0, 0, "running"⟩]

/-- The watch list of the test suite before the duplicate-add test. -/
def addBugState : EngineState := ⟨false, 5, ["Python.exe", "Chrome.exe", "test1", "test2"]⟩

def removeBugState : EngineState := ⟨true, 5, ["test1"]⟩

def cfgState : EngineState := ⟨false, 5, ["alpha"]⟩

/-! ### Helper lemmas on lists and strings -/

theorem dropWhile_dropWhile_self {α : Type} (p : α → Bool) (l : List α) :
    (l.dropWhile p).dropWhile p = l.dropWhile p := by
  induction l with
  | nil => rfl
  | cons a l ih =>
    by_cases h : p a
    · simp [List.dropWhile_cons, h, ih]
    · simp [List.dropWhile_cons, h]

theorem exists_append_dropWhile {α : Type} (p : α → Bool) (l : List α) :
    ∃ t, t ++ l.dropWhile p = l := by
  induction l with
  | nil => exact ⟨[], rfl⟩
  | cons a l ih =>
    by_cases h : p a
    · obtain ⟨t, ht⟩ := ih
      exact ⟨a :: t, by simp [List.dropWhile_cons, h, ht]⟩
    · exact ⟨[], by simp [List.dropWhile_cons, h]⟩

theorem head_false_of_dropWhile_fix {α : Type} (p : α → Bool) (c : α) (rest : List α)
    (h : (c :: rest).dropWhile p = c :: rest) : p c = false := by
  by_cases hc : p c
  · exfalso
    rw [List.dropWhile_cons, if_pos hc] at h
    obtain ⟨t, ht⟩ := exists_append_dropWhile p rest
    have hlen : (rest.dropWhile p).length ≤ rest.length := by
      conv_rhs => rw [← ht]
      simp
    rw [h] at hlen
    simp at hlen
  · exact Bool.not_eq_true _ ▸ eq_false_of_ne_true hc

theorem dropWhile_fix_of_append {α : Type} {p : α → Bool} {B u A : List α}
    (hBA : B ++ u = A) (hA : A.dropWhile p = A) : B.dropWhile p = B := by
  cases B with
  | nil => rfl
  | cons c bs =>
    have hc : p c = false := by
      apply head_false_of_dropWhile_fix p c (bs ++ u)
      rw [← List.cons_append, hBA]
      exact hA
    rw [List.dropWhile_cons, if_neg (by simp [hc])]

theorem pyStrip_idem (s : String) : pyStrip (pyStrip s) = pyStrip s := by
  unfold pyStrip
  set ws := Char.isWhitespace
  set A := s.data.dropWhile ws with hA
  set B := (A.reverse.dropWhile ws).reverse with hB
  have hdataB : (String.mk B).data = B := rfl
  rw [hdataB]
  have hAfix : A.dropWhile ws = A := dropWhile_dropWhile_self ws s.data
  have hBprefA : ∃ u, B ++ u = A := by
    obtain ⟨t, ht⟩ := exists_append_dropWhile ws A.reverse
    refine ⟨t.reverse, ?_⟩
    have := congrArg List.reverse ht
    simpa [hB] using this
  obtain ⟨u, hu⟩ := hBprefA
  have hBfix : B.dropWhile ws = B := dropWhile_fix_of_append hu hAfix
  rw [hBfix]
  have hBrev : B.reverse = A.reverse.dropWhile ws := by simp [hB]
  have : B.reverse.dropWhile ws = B.reverse := by
    rw [hBrev]
    exact dropWhile_dropWhile_self ws A.reverse
  rw [this]
  simp

theorem pyLower_eq_empty_iff {s : String} : pyLower s = "" ↔ s = "" := by
  cases s with
  | mk data =>
    constructor
    · intro h
      have hd : List.map Char.toLower data = [] := congrArg String.data h
      have hnil : data = [] := List.map_eq_nil_iff.mp hd
      rw [hnil]
    · intro h
      rw [h]
      rfl

theorem mem_dedupAux : ∀ {l seen : List String} {x : String}, x ∈ dedupAux seen l → x ∈ l := by
  intro l
  induction l with
  | nil => intro seen x h; simp [dedupAux] at h
  | cons n rest ih =>
    intro seen x h
    simp only [dedupAux] at h
    split at h
    · exact List.mem_cons_of_mem _ (ih h)
    · rcases List.mem_cons.mp h with h | h
      · exact h ▸ List.mem_cons_self _ _
      · exact List.mem_cons_of_mem _ (ih h)

theorem dedupAux_spec : ∀ (l seen : List String),
    (∀ x ∈ dedupAux seen l, pyLower x ∉ seen) ∧ ((dedupAux seen l).map pyLower).Nodup := by
  intro l
  induction l with
  | nil => intro seen; simp [dedupAux]
  | cons n rest ih =>
    intro seen
    simp only [dedupAux]
    split
    · exact ih seen
    · rename_i hn
      obtain ⟨ih1, ih2⟩ := ih (pyLower n :: seen)
      constructor
      · intro x hx
        rcases List.mem_cons.mp hx with h | h
        · exact h ▸ hn
        · exact fun hc => ih1 x h (List.mem_cons_of_mem _ hc)
      · simp only [List.map_cons, List.nodup_cons]
        refine ⟨?_, ih2⟩
        intro hc
        obtain ⟨y, hy, hyeq⟩ := List.mem_map.mp hc
        exact ih1 y hy (hyeq ▸ List.mem_cons_self _ _)

theorem dedupAux_eq_self : ∀ (l seen : List String),
    (l.map pyLower).Nodup → (∀ x ∈ l, pyLower x ∉ seen) → dedupAux seen l = l := by
  intro l
  induction l with
  | nil => intro seen _ _; rfl
  | cons n rest ih =>
    intro seen hnd hmem
    simp only [List.map_cons, List.nodup_cons] at hnd
    simp only [dedupAux]
    rw [if_neg (hmem n (List.mem_cons_self _ _))]
    congr 1
    apply ih _ hnd.2
    intro x hx
    simp only [List.mem_cons]
    rintro (h | h)
    · exact hnd.1 (h ▸ List.mem_map_of_mem pyLower hx)
    · exact hmem x (List.mem_cons_of_mem _ hx) h

theorem dedupAux_append : ∀ (old : List String) (seen new : List String),
    (old.map pyLower).Nodup → (∀ s ∈ old, pyLower s ∉ seen) →
    dedupAux seen (old ++ new) = old ++ dedupAux ((old.map pyLower).reverse ++ seen) new := by
  intro old
  induction old with
  | nil => intro seen new _ _; simp
  | cons a old ih =>
    intro seen new hnd hmem
    simp only [List.map_cons, List.nodup_cons] at hnd
    simp only [List.cons_append, dedupAux, List.append_eq]
    rw [if_neg (hmem a (List.mem_cons_self _ _))]
    rw [ih (pyLower a :: seen) new hnd.2 ?_]
    · simp
    · intro x hx
      simp only [List.mem_cons]
      rintro (h | h)
      · exact hnd.1 (h ▸ List.mem_map_of_mem pyLower hx)
      · exact hmem x (List.mem_cons_of_mem _ hx) h

theorem stripFilter_id {l : List String} (h : ∀ s ∈ l, pyStrip s = s ∧ s ≠ "") :
    ((l.map RawItem.str).map (fun it => pyStrip (extractName it))).filter
      (fun n => decide (n ≠ "")) = l := by
  rw [List.map_map]
  have hmap : l.map ((fun it => pyStrip (extractName it)) ∘ RawItem.str) = l := by
    calc l.map ((fun it => pyStrip (extractName it)) ∘ RawItem.str)
        = l.map id := List.map_congr_left (fun s hs => (h s hs).1)
      _ = l := List.map_id l
  rw [hmap, List.filter_eq_self.mpr]
  intro a ha
  simp [(h a ha).2]

theorem normalize_inv : ∀ raw, Inv (normalize_names raw) := by
  intro raw
  cases raw with
  | notList => exact ⟨by simp [normalize_names], by simp [normalize_names]⟩
  | list items =>
    simp only [normalize_names]
    constructor
    · intro s hs
      have hsmem := mem_dedupAux hs
      have := List.mem_filter.mp hsmem
      obtain ⟨hmap, hne⟩ := this
      obtain ⟨it, _, hit⟩ := List.mem_map.mp hmap
      refine ⟨hit ▸ pyStrip_idem (extractName it), ?_⟩
      simpa using hne
    · exact (dedupAux_spec _ []).2

theorem normalize_id_of_inv {l : List String} (h : Inv l) :
    normalize_names (RawInput.list (l.map RawItem.str)) = l := by
  simp only [normalize_names]
  rw [stripFilter_id h.1]
  exact dedupAux_eq_self l [] h.2 (by simp)

theorem dedupAux_eq_keepFirstCI : ∀ (l seen : List String),
    dedupAux seen l = keepFirstCI (l.filter (fun n => decide (pyLower n ∉ seen))) := by
  intro l
  induction l with
  | nil => intro seen; simp [dedupAux, keepFirstCI]
  | cons n rest ih =>
    intro seen
    simp only [dedupAux, List.filter_cons]
    by_cases hn : pyLower n ∈ seen
    · rw [if_pos hn, if_neg (by simp [hn])]
      exact ih seen
    · rw [if_neg hn, if_pos (by simp [hn])]
      have hfil : List.filter (fun a => decide (pyLower a ≠ pyLower n) && decide (pyLower a ∉ seen))
          rest = List.filter (fun m => decide (pyLower m ∉ pyLower n :: seen)) rest := by
        apply List.filter_congr
        intro x _
        by_cases h1 : pyLower x = pyLower n <;> by_cases h2 : pyLower x ∈ seen <;>
          simp [h1, h2]
      simp only [keepFirstCI]
      rw [List.filter_filter, hfil, ih (pyLower n :: seen)]

/-! ### Helper lemmas on the sampler -/

theorem aggregate_pid_mem : ∀ {l : List ProcEntry} {pid : Nat},
    pid ∈ (aggregate l).pid_list → ∃ p ∈ l, p.pid = pid := by
  intro l
  induction l with
  | nil => intro pid h; simp [aggregate] at h
  | cons p rest ih =>
    intro pid h
    simp only [aggregate] at h
    split at h
    · exact (ih h).elim (fun q hq => ⟨q, List.mem_cons_of_mem _ hq.1, hq.2⟩)
    · split at h
      · exact (ih h).elim (fun q hq => ⟨q, List.mem_cons_of_mem _ hq.1, hq.2⟩)
      · split at h
        · exact (ih h).elim (fun q hq => ⟨q, List.mem_cons_of_mem _ hq.1, hq.2⟩)
        · rcases List.mem_cons.mp h with h | h
          · exact ⟨p, List.mem_cons_self _ _, h.symm⟩
          · exact (ih h).elim (fun q hq => ⟨q, List.mem_cons_of_mem _ hq.1, hq.2⟩)

theorem aggregate_pid_nil : ∀ {l : List ProcEntry},
    (∀ p ∈ l, ¬(p.cpuOk = true ∧ p.memOk = true ∧ p.statusOk = true)) →
    (aggregate l).pid_list = [] := by
  intro l
  induction l with
  | nil => intro _; rfl
  | cons p rest ih =>
    intro h
    have hrest := ih (fun q hq => h q (List.mem_cons_of_mem _ hq))
    have hp := h p (List.mem_cons_self _ _)
    simp only [aggregate]
    split
    · exact hrest
    · split
      · exact hrest
      · split
        · exact hrest
        · rename_i h1 h2 h3
          exact absurd ⟨eq_true_of_ne_false (fun hc => h1 (by rw [hc])),
            eq_true_of_ne_false (fun hc => h2 (by rw [hc])),
            eq_true_of_ne_false (fun hc => h3 (by rw [hc]))⟩ hp

theorem aggregate_allOk : ∀ {l : List ProcEntry},
    (∀ p ∈ l, p.cpuOk = true ∧ p.memOk = true ∧ p.statusOk = true) →
    aggregate l = ⟨(l.map (fun p => p.cpu)).sum, (l.map (fun p => p.rss)).sum,
      l.map pstatus, l.map (fun p => p.pid)⟩ := by
  intro l
  induction l with
  | nil => intro _; rfl
  | cons p rest ih =>
    intro h
    have hrest := ih (fun q hq => h q (List.mem_cons_of_mem _ hq))
    obtain ⟨h1, h2, h3⟩ := h p (List.mem_cons_self _ _)
    simp only [aggregate, hrest, h1, h2, h3, List.map_cons, List.sum_cons]
    rfl

theorem matchedProcs_cons_skip {bad : ProcEntry} {t : List ProcEntry} {tgt : String}
    (h : bad.iterOk = false) : matchedProcs (bad :: t) tgt = matchedProcs t tgt := by
  simp [matchedProcs, List.filter_cons, h]

theorem foldl_mcStep_ge_init (l : List String) :
    ∀ (ks : List String) (init : String),
      countOcc l init ≤ countOcc l (ks.foldl (mcStep l) init) := by
  intro ks
  induction ks with
  | nil => intro init; exact Nat.le_refl _
  | cons a ks ih =>
    intro init
    refine Nat.le_trans ?_ (ih (mcStep l init a))
    unfold mcStep
    split
    · exact Nat.le_of_lt (by assumption)
    · exact Nat.le_refl _

theorem foldl_mcStep_ge_mem (l : List String) :
    ∀ (ks : List String) (init s : String), s ∈ ks →
      countOcc l s ≤ countOcc l (ks.foldl (mcStep l) init) := by
  intro ks
  induction ks with
  | nil => intro init s h; simp at h
  | cons a ks ih =>
    intro init s h
    rcases List.mem_cons.mp h with h | h
    · subst h
      refine Nat.le_trans ?_ (foldl_mcStep_ge_init l ks (mcStep l init s))
      unfold mcStep
      split
      · exact Nat.le_refl _
      · exact Nat.le_of_not_lt (by assumption)
    · exact ih (mcStep l init a) s h

theorem foldl_mcStep_mem (l : List String) :
    ∀ (ks : List String) (init : String),
      ks.foldl (mcStep l) init = init ∨ ks.foldl (mcStep l) init ∈ ks := by
  intro ks
  induction ks with
  | nil => intro init; exact Or.inl rfl
  | cons a ks ih =>
    intro init
    rcases ih (mcStep l init a) with h | h
    · rw [List.foldl_cons, h]
      unfold mcStep
      split
      · exact Or.inr (List.mem_cons_self _ _)
      · exact Or.inl rfl
    · exact Or.inr (List.mem_cons_of_mem _ (by rw [List.foldl_cons]; exact h))

theorem mostCommon_mem {l : List String} (h : l ≠ []) : mostCommon l ∈ l := by
  cases l with
  | nil => exact absurd rfl h
  | cons k ks =>
    simp only [mostCommon]
    rcases foldl_mcStep_mem (k :: ks) ks k with h | h
    · rw [h]; exact List.mem_cons_self _ _
    · exact List.mem_cons_of_mem _ h

theorem mostCommon_max {l : List String} :
    ∀ s ∈ l, countOcc l s ≤ countOcc l (mostCommon l) := by
  intro s hs
  cases l with
  | nil => simp at hs
  | cons k ks =>
    simp only [mostCommon]
    rcases List.mem_cons.mp hs with h | h
    · subst h
      exact foldl_mcStep_ge_init (s :: ks) ks s
    · exact foldl_mcStep_ge_mem (k :: ks) ks k s h

theorem countOcc_pos_iff {l : List String} {s : String} : 0 < countOcc l s ↔ s ∈ l := by
  unfold countOcc
  exact List.count_pos_iff

theorem row_allOk (c : Nat) (table : List ProcEntry) (name : String)
    (h1 : pyStrip name ≠ "") (hAll : ∀ p ∈ table, allOk p)
    (hm : matchedProcs table (pyLower (pyStrip name)) ≠ []) :
    row_for_name c table name =
      { name := name
        pid := ((matchedProcs table (pyLower (pyStrip name))).map (fun p => p.pid)).head?
        pids := (matchedProcs table (pyLower (pyStrip name))).map (fun p => p.pid)
        status := if 0 < countOcc ((matchedProcs table (pyLower (pyStrip name))).map pstatus)
              ("running") then "running"
          else mostCommon ((matchedProcs table (pyLower (pyStrip name))).map pstatus)
        cpu_percent := pyRound3 (min 100
          (((matchedProcs table (pyLower (pyStrip name))).map (fun p => p.cpu)).sum /
            (logicalCount c : ℚ)))
        cpu_percent_sum :=
          pyRound3 (((matchedProcs table (pyLower (pyStrip name))).map (fun p => p.cpu)).sum)
        memory_mb := pyRound3 ((Nat.cast (((matchedProcs table (pyLower (pyStrip name))).map
          (fun p => p.rss)).sum) : ℚ) / (1024 * 1024)) } := by
  have ht : pyLower (pyStrip name) ≠ "" := fun hc => h1 (pyLower_eq_empty_iff.mp hc)
  have halive : (matchedProcs table (pyLower (pyStrip name))).filter (fun p => p.primeOk)
      = matchedProcs table (pyLower (pyStrip name)) := by
    rw [List.filter_eq_self]
    intro p hp
    exact (hAll p (List.mem_filter.mp hp).1).2.1
  have hagg : aggregate (matchedProcs table (pyLower (pyStrip name))) =
      ⟨((matchedProcs table (pyLower (pyStrip name))).map (fun p => p.cpu)).sum,
        ((matchedProcs table (pyLower (pyStrip name))).map (fun p => p.rss)).sum,
        (matchedProcs table (pyLower (pyStrip name))).map pstatus,
        (matchedProcs table (pyLower (pyStrip name))).map (fun p => p.pid)⟩ := by
    apply aggregate_allOk
    intro p hp
    obtain ⟨_, _, h3, h4, h5⟩ := hAll p (List.mem_filter.mp hp).1
    exact ⟨h3, h4, h5⟩
  have hpids : ¬((matchedProcs table (pyLower (pyStrip name))).map (fun p => p.pid) = []) := by
    intro hc
    exact hm (List.map_eq_nil_iff.mp hc)
  simp only [row_for_name]
  rw [if_neg ht, if_neg hm, halive, hagg]
  dsimp only
  rw [if_neg hpids]

theorem row_pids_mem {c : Nat} {table : List ProcEntry} {name : String} {pid : Nat}
    (h : pid ∈ (row_for_name c table name).pids) :
    ∃ e ∈ table, e.pid = pid ∧ pyLower e.name = pyLower (pyStrip name) := by
  simp only [row_for_name] at h
  split at h
  · simp [notFoundRow] at h
  · split at h
    · simp [notFoundRow] at h
    · split at h
      · simp [notFoundRow] at h
      · obtain ⟨e, he, hpid⟩ := aggregate_pid_mem h
        have he2 := List.mem_of_mem_filter he
        have hmf := List.mem_filter.mp he2
        refine ⟨e, hmf.1, hpid, ?_⟩
        have hcond := hmf.2
        simp only [Bool.and_eq_true, beq_iff_eq] at hcond
        exact hcond.2

/-! ### Helper lemmas on the state operations -/

theorem addCore_spec {st : EngineState} {new_names : List String}
    (hstInv : Inv st.process_names) (hnew : ∀ s ∈ new_names, pyStrip s = s ∧ s ≠ "") :
    Inv ((addCore st new_names).1.process_names) ∧
    ∃ extra, (addCore st new_names).1.process_names = st.process_names ++ extra := by
  unfold addCore
  by_cases h : new_names = []
  · rw [if_pos h]
    exact ⟨hstInv, [], by simp⟩
  · rw [if_neg h]
    simp only [configure_processes]
    have hmergedClean : ∀ s ∈ st.process_names ++ new_names, pyStrip s = s ∧ s ≠ "" := by
      intro s hs
      rcases List.mem_append.mp hs with hs | hs
      · exact hstInv.1 s hs
      · exact hnew s hs
    have hinner : normalize_names (RawInput.list ((st.process_names ++ new_names).map RawItem.str))
        = st.process_names ++ dedupAux ((st.process_names.map pyLower).reverse) new_names := by
      simp only [normalize_names]
      rw [stripFilter_id hmergedClean]
      rw [dedupAux_append st.process_names [] new_names hstInv.2 (by simp)]
      simp
    have hid : normalize_names (RawInput.list
        ((normalize_names (RawInput.list ((st.process_names ++ new_names).map RawItem.str))).map
          RawItem.str))
        = normalize_names (RawInput.list ((st.process_names ++ new_names).map RawItem.str)) :=
      normalize_id_of_inv (normalize_inv _)
    refine ⟨?_, ?_⟩
    · simpa [hid] using normalize_inv (RawInput.list
        ((normalize_names (RawInput.list ((st.process_names ++ new_names).map RawItem.str))).map
          RawItem.str))
    · exact ⟨dedupAux ((st.process_names.map pyLower).reverse) new_names, by
        rw [hid, hinner]⟩

theorem ui_remove_spec {st : EngineState} {raw : Option String} (h : Inv st.process_names) :
    Inv ((ui_remove st raw).1.process_names) ∧
    List.Sublist (ui_remove st raw).1.process_names st.process_names := by
  have hfilInv : ∀ g : String → Bool, Inv (st.process_names.filter g) := by
    intro g
    constructor
    · intro s hs
      exact h.1 s (List.mem_of_mem_filter hs)
    · exact List.Nodup.sublist (List.Sublist.map pyLower (List.filter_sublist _)) h.2
  have hval : (ui_remove st raw).1.process_names = st.process_names ∨
      ∃ g : String → Bool, (ui_remove st raw).1.process_names = st.process_names.filter g := by
    simp only [ui_remove]
    split
    · exact Or.inl rfl
    · simp only [configure_processes]
      exact Or.inr ⟨_, normalize_id_of_inv (hfilInv _)⟩
  rcases hval with hval | ⟨g, hval⟩
  · rw [hval]
    exact ⟨h, List.Sublist.refl _⟩
  · rw [hval]
    exact ⟨hfilInv g, List.filter_sublist _⟩

theorem api_start_inv {st : EngineState} {procs : Option RawInput} {v : Option PyVal}
    (h : Inv st.process_names) : Inv ((api_start st procs v).1.process_names) := by
  unfold api_start
  cases procs with
  | none =>
    cases v with
    | none => exact h
    | some pv =>
      cases hw : pyFloat pv with
      | none => simpa [hw] using h
      | some f => simpa [hw] using h
  | some raw =>
    by_cases hn : normalize_names raw = []
    · cases v with
      | none => simpa [hn] using h
      | some pv =>
        cases hw : pyFloat pv with
        | none => simpa [hn, hw] using h
        | some f => simpa [hn, hw] using h
    · cases v with
      | none => simpa [hn] using normalize_inv raw
      | some pv =>
        cases hw : pyFloat pv with
        | none => simpa [hn, hw] using normalize_inv raw
        | some f => simpa [hn, hw] using normalize_inv raw

/-! ### Claim theorems -/

/-- Claim C1 (amended): on a non-empty name matched by at least one live
process, the sampler row reports cpu_percent_sum as the sum of the
per-process CPU percentages rounded to 3 decimals, cpu_percent as that
sum divided by the logical core count, capped at 100.0 and rounded to 3
decimals, memory_mb as the summed resident memory in MiB rounded to 3
decimals, pids as the matched PIDs in enumeration order, and status as
running when any matched process reports a running state, else a most
frequent reported state among the matches. -/
theorem samplerAggregation (c : Nat) (table : List ProcEntry) (name : String)
    (h1 : pyStrip name ≠ "") (hAll : ∀ p ∈ table, allOk p)
    (hm : matchedProcs table (pyLower (pyStrip name)) ≠ []) :
    samplerAggSpec c table name := by
  have hrow := row_allOk c table name h1 hAll hm
  unfold samplerAggSpec
  rw [hrow]
  refine ⟨rfl, rfl, rfl, rfl, ?_, ?_⟩
  · intro hrun
    simp only
    rw [if_pos (countOcc_pos_iff.mpr hrun)]
  · intro hrun
    simp only
    rw [if_neg (fun hc => hrun (countOcc_pos_iff.mp hc))]
    have hne : (matchedProcs table (pyLower (pyStrip name))).map pstatus ≠ [] := by
      intro hc
      exact hm (List.map_eq_nil_iff.mp hc)
    exact ⟨mostCommon_mem hne, fun s hs => mostCommon_max s hs⟩

/-- Witness for claim C1: two live chrome.exe processes with CPU 10 and
20 on a 4-core host satisfy the aggregation contract. -/
theorem samplerAggregation_witness : samplerAggSpec 4 liveTable "Chrome.exe" :=
  samplerAggregation 4 liveTable ("Chrome.exe") (by decide) (by decide) (by decide)

/-- Counterexample for claim C1 as stated: with two live matched
processes at CPU 10.0002 and 20.0002 on a 4-core host, the reported
cpu_percent_sum is 30.0, not the exact sum 30.0004, and the reported
cpu_percent is 7.5, not the exact capped quotient 7.5001: the code
rounds both CPU aggregates to 3 decimals. -/
theorem samplerRoundsCpu :
    (row_for_name 4 roundTable "svc").cpu_percent_sum ≠
      ((matchedProcs roundTable (pyLower (pyStrip "svc"))).map (fun p => p.cpu)).sum ∧
    (row_for_name 4 roundTable "svc").cpu_percent ≠
      min 100 (((matchedProcs roundTable (pyLower (pyStrip "svc"))).map (fun p => p.cpu)).sum /
        (logicalCount 4 : ℚ)) := by
  have hrow := row_allOk 4 roundTable ("svc") (by decide) (by decide) (by decide)
  have hmm : matchedProcs roundTable (pyLower (pyStrip "svc")) = roundTable := rfl
  have hsum : ((roundTable.map (fun p => p.cpu)).sum : ℚ) = 75001 / 2500 := by
    simp [roundTable, roundEntry]
    norm_num
  have hlog : ((logicalCount 4 : Nat) : ℚ) = 4 := rfl
  have hpy1 : pyRound3 (75001 / 2500) = 30 := by
    unfold pyRound3 rhe
    norm_num
  have hmin : min (100 : ℚ) (75001 / 2500 / 4) = 75001 / 10000 := by
    rw [show (75001 : ℚ) / 2500 / 4 = 75001 / 10000 by norm_num]
    exact min_eq_right (by norm_num)
  have hpy2 : pyRound3 (75001 / 10000) = 75 / 10 := by
    unfold pyRound3 rhe
    norm_num
  rw [hrow, hmm]
  constructor
  · simp only
    rw [hsum, hpy1]
    norm_num
  · simp only
    rw [hsum, hlog, hmin, hpy2]
    norm_num

/-- Claim C2: a name that strips to empty, or for which no process
survives the matching and liveness steps, yields the canonical
not-found row (status not_found, empty pids, zero CPU and memory); and
a process whose enumeration entry raises is skipped without affecting
the row, so per-process OS errors are never fatal to the call. -/
theorem rowNotFound : ∀ (c : Nat) (table : List ProcEntry) (name : String),
    ((pyStrip name = "" ∨ ∀ p ∈ table, ¬ survives (pyLower (pyStrip name)) p) →
      row_for_name c table name = notFoundRow name) ∧
    (∀ bad : ProcEntry, bad.iterOk = false →
      row_for_name c (bad :: table) name = row_for_name c table name) := by
  intro c table name
  constructor
  · intro h
    by_cases ht : pyLower (pyStrip name) = ""
    · simp [row_for_name, ht]
    · rcases h with h0 | hsurv
      · exact absurd (by rw [h0]; rfl) ht
      · by_cases hp : matchedProcs table (pyLower (pyStrip name)) = []
        · simp [row_for_name, ht, hp]
        · have hnil : (aggregate ((matchedProcs table (pyLower (pyStrip name))).filter
              (fun p => p.primeOk))).pid_list = [] := by
            apply aggregate_pid_nil
            intro p hpmem
            have hp2 : p ∈ matchedProcs table (pyLower (pyStrip name)) :=
              List.mem_of_mem_filter hpmem
            have hprime : p.primeOk = true := by
              simpa using List.of_mem_filter hpmem
            have hmem' := List.mem_filter.mp hp2
            have htab : p ∈ table := hmem'.1
            have hcond := hmem'.2
            simp only [Bool.and_eq_true, beq_iff_eq] at hcond
            intro hcms
            exact hsurv p htab ⟨hcond.1, hcond.2, hprime, hcms.1, hcms.2.1, hcms.2.2⟩
          simp [row_for_name, ht, hp, hnil]
  · intro bad hbad
    simp only [row_for_name, matchedProcs_cons_skip hbad]

/-- Witness for claim C2: a name matching nothing yields the not-found
row, and an inaccessible enumeration entry leaves the row unchanged. -/
theorem rowNotFound_witness :
    row_for_name 2 [] "pythonx" = notFoundRow "pythonx" ∧
    row_for_name 2 [deadEntry] "svc" = row_for_name 2 [] "svc" :=
  ⟨(rowNotFound 2 [] ("pythonx")).1 (Or.inr (by decide)),
   (rowNotFound 2 [] ("svc")).2 deadEntry (by decide)⟩

/-- Claim C3: normalization strips each extracted name, drops entries
that become empty, and deduplicates case-insensitively keeping the
first-seen casing at the first-seen position (rendered by keepFirstCI,
which erases every later case-insensitive duplicate); a non-list input
yields the empty list; and the Foo example collapses to a single entry
cased as its first occurrence. -/
theorem normalizeKeepsFirst :
    (∀ items, normalize_names (RawInput.list items) =
      keepFirstCI ((items.map (fun it => pyStrip (extractName it))).filter
        (fun n => decide (n ≠ "")))) ∧
    normalize_names RawInput.notList = [] ∧
    normalize_names (RawInput.list [RawItem.str ("Foo"), RawItem.str (" foo "),
      RawItem.str ("FOO")]) = ["Foo"] := by
  refine ⟨?_, rfl, by decide⟩
  intro items
  simp only [normalize_names]
  rw [dedupAux_eq_keepFirstCI]
  congr 1
  rw [List.filter_eq_self.mpr]
  intro a _
  simp

/-- Claim C4: the exported set_interval operation (route /ui/interval
backed by update_interval) rejects 0.5 and -1 leaving the stored
interval unchanged, accepts 1 storing 1.0, accepts the numeric string
"3" storing 3.0, and rejects the string "x" leaving the interval
unchanged. -/
theorem intervalTests : ∀ st : EngineState,
    ui_interval st (PyVal.num (1 / 2)) = (st, false) ∧
    ui_interval st (PyVal.num (-1)) = (st, false) ∧
    ui_interval st (PyVal.num 1) = ({ st with interval := 1 }, true) ∧
    ui_interval st (PyVal.str ("3")) = ({ st with interval := 3 }, true) ∧
    ui_interval st (PyVal.str ("x")) = (st, false) := by
  intro st
  have h3 : pyFloatOfString ("3") = some 3 := by decide
  have hx : pyFloatOfString ("x") = Option.none := by decide
  refine ⟨?_, ?_, ?_, ?_, ?_⟩
  · simp only [ui_interval, pyFloat]
    rw [if_pos (by norm_num)]
  · simp only [ui_interval, pyFloat]
    rw [if_pos (by norm_num)]
  · simp only [ui_interval, pyFloat]
    rw [if_neg (by norm_num)]
    simp only [update_interval, pyFloat]
    rw [max_eq_left (by norm_num)]
  · simp only [ui_interval, pyFloat, h3]
    rw [if_neg (by norm_num)]
    simp only [update_interval, pyFloat]
    rw [max_eq_right (by norm_num)]
  · simp only [ui_interval, pyFloat, hx]

/-- Claim C5: over one process table whose PIDs are unique, two distinct
names of an engine-maintained (stripped, case-insensitively
deduplicated) watch list always sample disjoint pid lists. -/
theorem snapshotPidsDisjoint (c : Nat) (table : List ProcEntry) (watch : List String)
    (hw : Inv watch) (hpid : (table.map (fun p => p.pid)).Nodup) :
    ∀ n1 ∈ watch, ∀ n2 ∈ watch, n1 ≠ n2 →
      ∀ pid, pid ∈ (row_for_name c table n1).pids → pid ∉ (row_for_name c table n2).pids := by
  intro n1 h1 n2 h2 hne pid hp1 hp2
  obtain ⟨e1, he1, he1pid, he1nm⟩ := row_pids_mem hp1
  obtain ⟨e2, he2, he2pid, he2nm⟩ := row_pids_mem hp2
  have heq : e1 = e2 := List.inj_on_of_nodup_map hpid he1 he2 (by rw [he1pid, he2pid])
  have htgt : pyLower (pyStrip n1) = pyLower (pyStrip n2) := by rw [← he1nm, heq, he2nm]
  have hn1 : pyStrip n1 = n1 := (hw.1 n1 h1).1
  have hn2 : pyStrip n2 = n2 := (hw.1 n2 h2).1
  rw [hn1, hn2] at htgt
  exact hne (List.inj_on_of_nodup_map hw.2 h1 h2 htgt)

/-- Witness for claim C5: with processes alpha (PID 1) and beta (PID 2)
and the watch list [alpha, beta], PID 1 cannot appear in the beta
row. -/
theorem snapshotPidsDisjoint_witness : (1 : Nat) ∉ (row_for_name 1 twoNameTable "beta").pids :=
  snapshotPidsDisjoint 1 twoNameTable ["alpha", "beta"] (by decide) (by decide)
    ("alpha") (by decide) ("beta") (by decide) (by decide) 1 (by decide)

/-- Claim C6 is a code bug: adding a name already present
case-insensitively (a merge with no net change) succeeds with ok=true
and HTTP 200 instead of failing, contradicting the test
test_add_existing_process of the repository, which expects 409.  This
theorem evaluates the code at the failing input. -/
theorem addExistingSucceeds :
    (ui_add addBugState (some (Sum.inl ["pYtHon.Exe"]))).2 = true ∧
    (ui_add addBugState (some (Sum.inl ["pYtHon.Exe"]))).1.process_names =
      ["Python.exe", "Chrome.exe", "test1", "test2"] := ⟨rfl, rfl⟩

/-- Claim C7 is a code bug: removing a name that matches no watch-list
entry succeeds with ok=true and HTTP 200 (the list unchanged) instead
of failing with a not-found error, contradicting the test
test_attempt_to_delete_nonexistent_process of the repository, which
expects 404.  This theorem evaluates the code at the failing input. -/
theorem removeMissingSucceeds :
    (ui_remove removeBugState (some ("nonexistent_process"))).2 = true ∧
    (ui_remove removeBugState (some ("nonexistent_process"))).1.process_names = ["test1"] :=
  ⟨rfl, rfl⟩

/-- Counterexample for claim C8 as stated: configuring with a present
but empty processes list succeeds (ok=true) and clears the watch list,
instead of failing with InvalidConfig and leaving the list
unchanged. -/
theorem configureEmptyClears :
    (configure_processes cfgState (some (RawInput.list []))).2 = true ∧
    (configure_processes cfgState (some (RawInput.list []))).1.process_names = [] := ⟨rfl, rfl⟩

/-- Claim C8 (amended): configure fails, leaving the state unchanged,
exactly when the processes key is missing; whenever the key is present
it succeeds in either state and replaces the watch list with the
normalization of the supplied names, even when that normalization is
empty. -/
theorem configureContract : ∀ (st : EngineState),
    configure_processes st Option.none = (st, false) ∧
    ∀ raw, (configure_processes st (some raw)).2 = true ∧
      (configure_processes st (some raw)).1.process_names = normalize_names raw ∧
      (configure_processes st (some raw)).1.running = st.running ∧
      (configure_processes st (some raw)).1.interval = st.interval := by
  intro st
  exact ⟨rfl, fun raw => ⟨rfl, rfl, rfl, rfl⟩⟩

/-- Claim C9: after stop, also on an already stopped engine, the running
flag is false, the results endpoint answers the no-content signal
rather than any earlier snapshot, and stopping again succeeds with the
same state (idempotence). -/
theorem apiStopIdem : ∀ (st : EngineState) (c : Nat) (t : List ProcEntry),
    (api_stop st).2 = true ∧ (api_stop st).1.running = false ∧
    ui_results c t (api_stop st).1 = Option.none ∧
    api_stop (api_stop st).1 = ((api_stop st).1, true) := by
  intro st c t
  refine ⟨rfl, rfl, ?_, rfl⟩
  simp [api_stop, ui_results]

/-- Claim C10: every mutating operation keeps the watch list free of
empty or whitespace-only names and of case-insensitive duplicates, and
preserves the relative order of surviving entries: configure always
establishes the invariant; add extends the existing list on the right;
remove yields a sublist; start preserves it. -/
theorem watchListInvariant :
    (∀ (st : EngineState) (raw : RawInput),
      Inv ((configure_processes st (some raw)).1.process_names)) ∧
    (∀ st : EngineState, (configure_processes st Option.none).1.process_names =
      st.process_names) ∧
    (∀ (st : EngineState) (raw : Option (Sum (List String) String)), Inv st.process_names →
      Inv ((ui_add st raw).1.process_names) ∧
      ∃ extra, (ui_add st raw).1.process_names = st.process_names ++ extra) ∧
    (∀ (st : EngineState) (raw : Option String), Inv st.process_names →
      Inv ((ui_remove st raw).1.process_names) ∧
      List.Sublist (ui_remove st raw).1.process_names st.process_names) ∧
    (∀ (st : EngineState) (procs : Option RawInput) (v : Option PyVal), Inv st.process_names →
      Inv ((api_start st procs v).1.process_names)) := by
  refine ⟨?_, ?_, ?_, ?_, ?_⟩
  · intro st raw
    simpa [configure_processes] using normalize_inv raw
  · intro st
    rfl
  · intro st raw h
    cases raw with
    | none => exact ⟨h, [], by simp [ui_add]⟩
    | some x =>
      cases x with
      | inl xs =>
        simpa [ui_add] using addCore_spec h (fun s hs => (normalize_inv _).1 s hs)
      | inr s =>
        simpa [ui_add] using addCore_spec h (fun s hs => (normalize_inv _).1 s hs)
  · intro st raw h
    exact ui_remove_spec h
  · intro st procs v h
    exact api_start_inv h

/-- Witness for claim C10: adding Beta to the watch list [Alpha] and
removing alpha from it both preserve the invariant. -/
theorem watchListInvariant_witness :
    Inv ((ui_add ⟨false, 5, ["Alpha"]⟩ (some (Sum.inl ["Beta"]))).1.process_names) ∧
    Inv ((ui_remove ⟨false, 5, ["Alpha"]⟩ (some ("alpha"))).1.process_names) := by
  have h := watchListInvariant
  exact ⟨(h.2.2.1 ⟨false, 5, ["Alpha"]⟩ (some (Sum.inl ["Beta"])) (by decide)).1,
    (h.2.2.2.1 ⟨false, 5, ["Alpha"]⟩ (some ("alpha")) (by decide)).1⟩

end PIDPatrol
